import Mathlib

/-!
Verification development for the statistical feature-analysis toolkit of the
repository: `mean_cov` (math/multivariate_prob/0-mean_cov.py), `correlation`
(math/multivariate_prob/1-correlation.py) and `pca`
(unsupervised_learning/dimensionality_reduction/0-pca.py).

Embedding conventions:
* numpy 2-D arrays are `List (List ℚ)` (row-major); exact rationals stand in
  for floats, so floating-point rounding is out of scope while the algorithmic
  structure (divisors, sorting, thresholding, diagonal overwriting) is exact.
* Division is Lean's total division (`x / 0 = 0`).  The only place the source
  can divide by zero on validated input is the cumulative-variance ratio when
  the total eigenvalue sum is zero; there numpy produces non-finite values
  that compare `False` against the threshold, which leads to the same selected
  index as the Lean convention (see `pca` below).
* `np.linalg.eig` is an external LAPACK routine; it is passed in as an
  explicit parameter `eig` producing an eigenvalue list together with the
  list of eigenvector columns of the returned matrix.
* The dynamic (Python-level) argument space needed by the validation code is
  modelled by `PyVal`: a 2-D ndarray with a dtype flag (`numeric = false`
  models string/object dtypes; its entry payload is then irrelevant), an
  ndarray of some other dimensionality, or a non-ndarray.  numpy ufunc /
  reduction calls (`np.mean`, `np.cov`, `np.sqrt`) raise a type error on
  non-numeric dtypes; that external behaviour is modelled where those calls
  occur.
-/

namespace AluML

/-- Python-level error kinds raised by the three functions:
`typeErr` models `TypeError`, `valueErr` models `ValueError`. -/
inductive NpErr where
  | typeErr
  | valueErr
deriving DecidableEq

/-- Dynamic argument values: a 2-D numpy array (with dtype-numeric flag),
a numpy array of dimensionality other than 2, or a non-array object. -/
inductive PyVal where
  | arr2 (rows : List (List ℚ)) (numeric : Bool)
  | arrOther
  | notArr
deriving DecidableEq

/-- Python scalars for the `var` argument of `pca`: an `int`/`float`
(one rational payload) or any other object. -/
inductive PyScalar where
  | num (q : ℚ)
  | nonNum
deriving DecidableEq

/-- Number of columns of a row-major matrix (numpy `X.shape[1]`). -/
def ncols (rows : List (List ℚ)) : ℕ := (rows.headD []).length

/-- Rectangularity: every row has length `d` (automatic for numpy arrays). -/
def Rect (rows : List (List ℚ)) (d : ℕ) : Prop := ∀ r ∈ rows, r.length = d

/-- `np.mean(X, axis=0)`: the column-wise averages. -/
def colMeans (X : List (List ℚ)) : List ℚ :=
  (List.range (ncols X)).map fun j =>
    (X.map fun r => r.getD j 0).sum / (X.length : ℚ)

/-- `np.dot(X_centered.T, X_centered) / (n - 1)` where
`X_centered = X - np.mean(X, axis=0, keepdims=True)`: entry `(j, k)` is the
sum over the rows of the products of the centred entries in columns `j` and
`k`, divided by `n - 1`.  This is also the `d × d` covariance `np.cov(X.T)`
computes in `pca` before its final `squeeze()`; the squeeze (which turns the
`1 × 1` covariance of a single-column `X` into a 0-d array that
`np.linalg.eig` then rejects) is modelled as an error path in the `pca`
wrapper below, not here. -/
def covOf (X : List (List ℚ)) : List (List ℚ) :=
  (List.range (ncols X)).map fun j => (List.range (ncols X)).map fun k =>
    (X.map fun r =>
        (r.getD j 0 - (colMeans X).getD j 0) *
        (r.getD k 0 - (colMeans X).getD k 0)).sum / ((X.length : ℚ) - 1)

/-- `mean_cov` from `math/multivariate_prob/0-mean_cov.py`:
raise `TypeError` unless the input is an ndarray with `ndim == 2`, then raise
`ValueError` if `n < 2`, then compute `np.mean(X, axis=0, keepdims=True)`
(which raises a `TypeError` on a non-numeric dtype) and the centred covariance
with divisor `n - 1`. -/
def mean_cov : PyVal → Except NpErr (List (List ℚ) × List (List ℚ))
  | .notArr => .error .typeErr
  | .arrOther => .error .typeErr
  | .arr2 rows numeric =>
    if rows.length < 2 then .error .valueErr
    else if numeric then .ok ([colMeans rows], covOf rows)
    else .error .typeErr

/-- Dot product of two vectors, pairing componentwise (spec-side vocabulary
for stating the claimed covariance formula). -/
def dotQ (u v : List ℚ) : ℚ := ((u.zip v).map fun p => p.1 * p.2).sum

/-- Column `j` of a row-major matrix. -/
def colOf (M : List (List ℚ)) (j : ℕ) : List ℚ := M.map fun r => r.getD j 0

/-- The rows of `X` with the column means subtracted. -/
def centeredRows (X : List (List ℚ)) : List (List ℚ) :=
  X.map fun r => (List.range (ncols X)).map fun j => r.getD j 0 - (colMeans X).getD j 0

/-- Entry `(i, j)` of a row-major matrix, with 0 as out-of-range default. -/
def ent {α : Type} [Zero α] (M : List (List α)) (i j : ℕ) : α :=
  (M.getD i []).getD j 0

theorem getD_map_range {α : Type} (f : ℕ → α) {n i : ℕ} (h : i < n) (d : α) :
    ((List.range n).map f).getD i d = f i := by
  rw [List.getD_eq_getElem _ _ (by simpa using h), List.getElem_map,
    List.getElem_range]

theorem ent_mk {α : Type} [Zero α] (f : ℕ → ℕ → α) {d1 d2 i j : ℕ}
    (hi : i < d1) (hj : j < d2) :
    ent ((List.range d1).map fun a => (List.range d2).map fun b => f a b) i j
      = f i j := by
  unfold ent
  rw [getD_map_range _ hi, getD_map_range _ hj]

theorem dotQ_map_map {β : Type} (l : List β) (f g : β → ℚ) :
    dotQ (l.map f) (l.map g) = (l.map fun x => f x * g x).sum := by
  unfold dotQ
  rw [List.zip_map', List.map_map]
  rfl

theorem covOf_entry (X : List (List ℚ)) (j k : ℕ) (hj : j < ncols X)
    (hk : k < ncols X) :
    ent (covOf X) j k =
      dotQ (colOf (centeredRows X) j) (colOf (centeredRows X) k) /
        ((X.length : ℚ) - 1) := by
  unfold covOf
  rw [ent_mk _ hj hk]
  congr 1
  unfold colOf centeredRows
  rw [List.map_map, List.map_map, dotQ_map_map]
  congr 1
  refine List.map_congr_left ?_
  intro r hr
  simp only [Function.comp]
  rw [getD_map_range _ hj, getD_map_range _ hk]

theorem ncols_eq_of_rect {X : List (List ℚ)} {d : ℕ} (hn : 1 ≤ X.length)
    (hd : Rect X d) : ncols X = d := by
  cases X with
  | nil => simp at hn
  | cons r rs => exact hd r (by simp)

instance decEqExcept {ε α : Type} [DecidableEq ε] [DecidableEq α] :
    DecidableEq (Except ε α) := fun x y =>
  match x, y with
  | .error a, .error b =>
    if h : a = b then .isTrue (by rw [h])
    else .isFalse fun hc => h (by cases hc; rfl)
  | .ok a, .ok b =>
    if h : a = b then .isTrue (by rw [h])
    else .isFalse fun hc => h (by cases hc; rfl)
  | .error _, .ok _ => .isFalse fun hc => Except.noConfusion hc
  | .ok _, .error _ => .isFalse fun hc => Except.noConfusion hc

/-- C2: `estimate_moments` (source function `mean_cov`) on a 2-D numeric
matrix with `n ≥ 2` rows returns a `1 × d` mean whose `j`-th entry is the
column-wise average, and a `d × d` covariance whose `(j, k)` entry is the dot
product of centred columns `j` and `k` divided by `n − 1` (the unbiased
estimator); in particular `X = [[1,2],[3,4],[5,6],[7,8]]` yields mean `[4,5]`
and every covariance entry `20/3`. -/
theorem mean_cov_correct (X : List (List ℚ)) (d : ℕ)
    (hn : 2 ≤ X.length) (hd : Rect X d) :
    ∃ M C, mean_cov (.arr2 X true) = .ok (M, C) ∧
      M.length = 1 ∧ (M.headD []).length = d ∧
      C.length = d ∧ (∀ row ∈ C, row.length = d) ∧
      (∀ j, j < d → (M.headD []).getD j 0 = (colOf X j).sum / (X.length : ℚ)) ∧
      (∀ j k, j < d → k < d →
        ent C j k =
          dotQ (colOf (centeredRows X) j) (colOf (centeredRows X) k) /
            ((X.length : ℚ) - 1)) ∧
      mean_cov (.arr2 [[1, 2], [3, 4], [5, 6], [7, 8]] true) =
        .ok ([[4, 5]], [[20/3, 20/3], [20/3, 20/3]]) := by
  have hc : ncols X = d := ncols_eq_of_rect (by omega) hd
  refine ⟨[colMeans X], covOf X, ?_, rfl, ?_, ?_, ?_, ?_, ?_, ?_⟩
  · simp only [mean_cov]
    rw [if_neg (by omega)]
    simp
  · simp [colMeans, hc]
  · simp [covOf, hc]
  · intro row hrow
    unfold covOf at hrow
    simp only [List.mem_map, List.mem_range] at hrow
    obtain ⟨j, hj, hrow⟩ := hrow
    simp [← hrow, hc]
  · intro j hj
    show (colMeans X).getD j 0 = _
    unfold colMeans
    rw [getD_map_range _ (by omega : j < ncols X)]
    rfl
  · intro j k hj hk
    exact covOf_entry X j k (by omega) (by omega)
  · simp [mean_cov, colMeans, covOf, ncols, List.range_succ]
    norm_num

theorem mean_cov_correct_witness :
    2 ≤ ([[(1 : ℚ), 2], [3, 4], [5, 6], [7, 8]]).length ∧
    Rect [[(1 : ℚ), 2], [3, 4], [5, 6], [7, 8]] 2 ∧
    ∃ M C,
      mean_cov (.arr2 [[(1 : ℚ), 2], [3, 4], [5, 6], [7, 8]] true) =
        .ok (M, C) ∧
      M.length = 1 ∧ (M.headD []).length = 2 ∧
      C.length = 2 ∧ (∀ row ∈ C, row.length = 2) ∧
      (∀ j, j < 2 →
        (M.headD []).getD j 0 =
          (colOf [[(1 : ℚ), 2], [3, 4], [5, 6], [7, 8]] j).sum /
            (([[(1 : ℚ), 2], [3, 4], [5, 6], [7, 8]] : List (List ℚ)).length : ℚ)) ∧
      (∀ j k, j < 2 → k < 2 →
        ent C j k =
          dotQ (colOf (centeredRows [[(1 : ℚ), 2], [3, 4], [5, 6], [7, 8]]) j)
              (colOf (centeredRows [[(1 : ℚ), 2], [3, 4], [5, 6], [7, 8]]) k) /
            ((([[(1 : ℚ), 2], [3, 4], [5, 6], [7, 8]] : List (List ℚ)).length : ℚ) - 1)) ∧
      mean_cov (.arr2 [[1, 2], [3, 4], [5, 6], [7, 8]] true) =
        .ok ([[4, 5]], [[20/3, 20/3], [20/3, 20/3]]) :=
  ⟨by decide, by unfold Rect; decide,
    mean_cov_correct [[1, 2], [3, 4], [5, 6], [7, 8]] 2 (by decide) (by unfold Rect; decide)⟩

/-! ### `correlation` (math/multivariate_prob/1-correlation.py)

The computation works on real numbers because of `np.sqrt`; the wrapper casts
the rational ndarray payload into `ℝ`. -/

/-- `np.diag(C)`: the diagonal entries. -/
def npDiag (M : List (List ℝ)) : List ℝ :=
  (List.range M.length).map fun i => ent M i i

/-- `np.outer(u, v)`: the matrix of pairwise products. -/
noncomputable def npOuter (u v : List ℝ) : List (List ℝ) :=
  u.map fun x => v.map fun y => x * y

/-- Elementwise division of two matrices (`C / np.outer(...)`). -/
noncomputable def entryDiv (A B : List (List ℝ)) : List (List ℝ) :=
  List.zipWith (List.zipWith (· / ·)) A B

/-- `np.fill_diagonal(corr, 1)`: overwrite entry `(i, i)` of every row `i`
with the exact value 1. -/
def fillDiagonal (M : List (List ℝ)) : List (List ℝ) :=
  (List.range M.length).map fun i => (M.getD i []).set i 1

/-- The numeric part of `correlation`: standard deviations are the square
roots of the diagonal, the matrix is divided elementwise by their outer
product, and the diagonal is then forced to exactly 1. -/
noncomputable def correlationCore (C : List (List ℝ)) : List (List ℝ) :=
  fillDiagonal (entryDiv C (npOuter ((npDiag C).map Real.sqrt)
    ((npDiag C).map Real.sqrt)))

/-- `correlation` from `math/multivariate_prob/1-correlation.py`:
raise `TypeError` unless the input is an ndarray, raise `ValueError` unless
it is 2-D and square, then compute (`np.sqrt` raises a `TypeError` on a
non-numeric dtype). -/
noncomputable def correlation : PyVal → Except NpErr (List (List ℝ))
  | .notArr => .error .typeErr
  | .arrOther => .error .valueErr
  | .arr2 rows numeric =>
    if rows.length ≠ ncols rows then .error .valueErr
    else if numeric then
      .ok (correlationCore (rows.map fun r => r.map fun q => (q : ℝ)))
    else .error .typeErr

theorem npDiag_length (M : List (List ℝ)) : (npDiag M).length = M.length := by
  simp [npDiag]

theorem entryDiv_length (A B : List (List ℝ)) :
    (entryDiv A B).length = min A.length B.length := by
  simp [entryDiv]

theorem npOuter_length (u v : List ℝ) : (npOuter u v).length = u.length := by
  simp [npOuter]

theorem correlationCore_length (C : List (List ℝ)) :
    (correlationCore C).length = C.length := by
  simp [correlationCore, fillDiagonal, entryDiv, npOuter, npDiag]

/-- Squareness and rectangularity hypothesis over `ℝ` matrices. -/
def SquareR (C : List (List ℝ)) (d : ℕ) : Prop :=
  C.length = d ∧ ∀ r ∈ C, r.length = d

theorem npDiag_getElem (M : List (List ℝ)) (i : ℕ) (hi : i < (npDiag M).length) :
    (npDiag M)[i] = ent M i i := by
  unfold npDiag
  rw [List.getElem_map, List.getElem_range]

/-- `correlationCore` on a square matrix, rewritten as an index
comprehension: the diagonal is 1 and entry `(i, j)` is
`C[i][j] / (√C[i][i] · √C[j][j])` elsewhere. -/
theorem getElem?_map_range {α : Type} (f : ℕ → α) {n i : ℕ} (h : i < n) :
    ((List.range n).map f)[i]? = some (f i) := by
  rw [List.getElem?_map, List.getElem?_range h]
  rfl

theorem getElem?_eq_some_getD {α : Type} (l : List α) (d : α) {j : ℕ}
    (h : j < l.length) : l[j]? = some (l.getD j d) := by
  rw [List.getElem?_eq_getElem h]
  exact congrArg some (List.getD_eq_getElem l d h).symm

theorem stds_getElem? (C : List (List ℝ)) {d a : ℕ} (hlen : C.length = d)
    (ha : a < d) :
    ((npDiag C).map Real.sqrt)[a]? = some (Real.sqrt (ent C a a)) := by
  have h : a < (npDiag C).length := by rw [npDiag_length, hlen]; omega
  rw [List.getElem?_map, List.getElem?_eq_getElem h, npDiag_getElem]
  rfl

theorem stds_getD (C : List (List ℝ)) {d a : ℕ} (hlen : C.length = d)
    (ha : a < d) :
    ((npDiag C).map Real.sqrt).getD a 0 = Real.sqrt (ent C a a) := by
  rw [List.getD_eq_getElem?_getD, stds_getElem? C hlen ha]
  rfl

theorem npOuter_row (u : List ℝ) {i : ℕ} (hi : i < u.length) :
    (npOuter u u)[i]? = some (u.map fun y => u.getD i 0 * y) := by
  unfold npOuter
  rw [List.getElem?_map, List.getElem?_eq_getElem hi,
    List.getD_eq_getElem u 0 hi]
  rfl

theorem corrRow (C : List (List ℝ)) {d i : ℕ} (hlen : C.length = d)
    (hi : i < d) :
    (entryDiv C (npOuter ((npDiag C).map Real.sqrt)
        ((npDiag C).map Real.sqrt))).getD i [] =
      List.zipWith (· / ·) (C.getD i [])
        (((npDiag C).map Real.sqrt).map
          fun y => ((npDiag C).map Real.sqrt).getD i 0 * y) := by
  have hs : i < ((npDiag C).map Real.sqrt).length := by
    rw [List.length_map, npDiag_length, hlen]; omega
  have h : (entryDiv C (npOuter ((npDiag C).map Real.sqrt)
      ((npDiag C).map Real.sqrt)))[i]? =
      some (List.zipWith (· / ·) (C.getD i [])
        (((npDiag C).map Real.sqrt).map
          fun y => ((npDiag C).map Real.sqrt).getD i 0 * y)) := by
    unfold entryDiv
    rw [List.getElem?_zipWith', npOuter_row _ hs,
      List.getElem?_eq_getElem (show i < C.length by omega),
      List.getD_eq_getElem C [] (show i < C.length by omega)]
    rfl
  rw [List.getD_eq_getElem?_getD, h]
  rfl

/-- `correlationCore` on a square matrix, rewritten as an index
comprehension: the diagonal is exactly 1 and entry `(i, j)` with `i ≠ j` is
`C[i][j] / (√C[i][i] · √C[j][j])`. -/
theorem correlationCore_eq (C : List (List ℝ)) (d : ℕ) (hsq : SquareR C d) :
    correlationCore C = (List.range d).map fun i => (List.range d).map fun j =>
      if i = j then 1
      else ent C i j / (Real.sqrt (ent C i i) * Real.sqrt (ent C j j)) := by
  obtain ⟨hlen, hrect⟩ := hsq
  have hrowlen : ∀ i, i < d → (C.getD i []).length = d := by
    intro i hi
    rw [List.getD_eq_getElem C [] (show i < C.length by omega)]
    exact hrect _ (List.getElem_mem _)
  have hMlen : (entryDiv C (npOuter ((npDiag C).map Real.sqrt)
      ((npDiag C).map Real.sqrt))).length = d := by
    rw [entryDiv_length, npOuter_length, List.length_map, npDiag_length, hlen]
    omega
  have hRlen : ∀ i, i < d → ((entryDiv C (npOuter ((npDiag C).map Real.sqrt)
      ((npDiag C).map Real.sqrt))).getD i []).length = d := by
    intro i hi
    rw [corrRow C hlen hi, List.length_zipWith, hrowlen i hi,
      List.length_map, List.length_map, npDiag_length, hlen]
    omega
  apply List.ext_getElem?
  intro i
  rcases Nat.lt_or_ge i d with hi | hi
  · rw [getElem?_map_range _ hi]
    show (fillDiagonal _)[i]? = _
    unfold fillDiagonal
    rw [getElem?_map_range _ (by rw [hMlen]; omega)]
    congr 1
    apply List.ext_getElem?
    intro j
    rcases Nat.lt_or_ge j d with hj | hj
    · rw [getElem?_map_range _ hj, List.getElem?_set]
      by_cases hij : i = j
      · rw [if_pos hij, if_pos (by rw [hRlen i hi]; omega), if_pos hij]
      · rw [if_neg hij, if_neg hij]
        rw [corrRow C hlen hi, stds_getD C hlen hi, List.getElem?_zipWith',
          getElem?_eq_some_getD (C.getD i []) 0 (by rw [hrowlen i hi]; omega),
          List.getElem?_map, stds_getElem? C hlen hj]
        rfl
    · rw [List.getElem?_eq_none (by
          rw [List.length_set, hRlen i hi]; omega),
        List.getElem?_eq_none (by simp; omega)]
  · rw [List.getElem?_eq_none (by
        rw [correlationCore_length, hlen]; omega),
      List.getElem?_eq_none (by simp; omega)]

/-- Reconstructing a square matrix from its `ent` entries. -/
theorem matrix_ext_ent {α : Type} [Zero α] (M : List (List α)) (d : ℕ)
    (hlen : M.length = d) (hrect : ∀ r ∈ M, r.length = d) :
    ((List.range d).map fun i => (List.range d).map fun j => ent M i j) = M := by
  have hrowlen : ∀ i, i < d → (M.getD i []).length = d := by
    intro i hi
    rw [List.getD_eq_getElem M [] (show i < M.length by omega)]
    exact hrect _ (List.getElem_mem _)
  apply List.ext_getElem?
  intro i
  rcases Nat.lt_or_ge i d with hi | hi
  · rw [getElem?_map_range _ hi, getElem?_eq_some_getD M [] (by omega)]
    congr 1
    apply List.ext_getElem?
    intro j
    rcases Nat.lt_or_ge j d with hj | hj
    · rw [getElem?_map_range _ hj,
        getElem?_eq_some_getD (M.getD i []) 0 (by rw [hrowlen i hi]; omega)]
      rfl
    · rw [List.getElem?_eq_none (by simp; omega),
        List.getElem?_eq_none (by rw [hrowlen i hi]; omega)]
  · rw [List.getElem?_eq_none (by simp; omega),
      List.getElem?_eq_none (by omega)]

theorem correlationCore_square (C : List (List ℝ)) (d : ℕ)
    (hsq : SquareR C d) : SquareR (correlationCore C) d := by
  constructor
  · rw [correlationCore_eq C d hsq]
    simp
  · intro r hr
    rw [correlationCore_eq C d hsq] at hr
    simp only [List.mem_map, List.mem_range] at hr
    obtain ⟨a, _, hr⟩ := hr
    rw [← hr]
    simp

/-- C3: `normalize_correlation` (source function `correlation`) on a square
matrix with strictly positive diagonal returns a matrix whose off-diagonal
entry `(i, j)` is `C[i][j] / (√C[i][i] · √C[j][j])` and whose diagonal
entries are exactly 1; in particular `C = [[4,2],[2,9]]` is mapped to
`[[1, 1/3], [1/3, 1]]`. -/
theorem correlation_correct (C : List (List ℝ)) (d : ℕ) (hsq : SquareR C d)
    (hpos : ∀ i, i < d → 0 < ent C i i) :
    (∀ i j, i < d → j < d → i ≠ j →
      ent (correlationCore C) i j =
        ent C i j / (Real.sqrt (ent C i i) * Real.sqrt (ent C j j))) ∧
    (∀ i, i < d → ent (correlationCore C) i i = 1) ∧
    (correlationCore C).length = d ∧
    (∀ r ∈ correlationCore C, r.length = d) ∧
    correlation (.arr2 [[4, 2], [2, 9]] true) =
      .ok [[1, 1/3], [1/3, 1]] := by
  obtain ⟨hsq1, hsq2⟩ := correlationCore_square C d hsq
  refine ⟨?_, ?_, hsq1, hsq2, ?_⟩
  · intro i j hi hj hij
    rw [correlationCore_eq C d hsq, ent_mk _ hi hj, if_neg hij]
  · intro i hi
    rw [correlationCore_eq C d hsq, ent_mk _ hi hi, if_pos rfl]
  · have hcast : (([[4, 2], [2, 9]] : List (List ℚ)).map
        fun r => r.map fun q => (q : ℝ)) = [[4, 2], [2, 9]] := by
      norm_num
    have hsq49 : SquareR [[(4 : ℝ), 2], [2, 9]] 2 := by
      refine ⟨rfl, ?_⟩
      intro r hr
      simp only [List.mem_cons, List.not_mem_nil, or_false] at hr
      rcases hr with rfl | rfl <;> rfl
    have h4 : Real.sqrt 4 = 2 := by
      rw [show (4 : ℝ) = 2 ^ 2 by norm_num]
      exact Real.sqrt_sq (by norm_num)
    have h9 : Real.sqrt 9 = 3 := by
      rw [show (9 : ℝ) = 3 ^ 2 by norm_num]
      exact Real.sqrt_sq (by norm_num)
    have hval : correlationCore [[(4 : ℝ), 2], [2, 9]] =
        [[1, 1/3], [1/3, 1]] := by
      rw [correlationCore_eq _ 2 hsq49]
      simp only [List.range_succ, List.range_zero]
      norm_num [ent, h4, h9]
    have hwrap : correlation (.arr2 [[4, 2], [2, 9]] true) =
        .ok (correlationCore (([[4, 2], [2, 9]] : List (List ℚ)).map
          fun r => r.map fun q => (q : ℝ))) := rfl
    rw [hwrap, hcast, hval]

theorem correlation_correct_witness :
    SquareR [[(4 : ℝ), 2], [2, 9]] 2 ∧
    (∀ i, i < 2 → 0 < ent [[(4 : ℝ), 2], [2, 9]] i i) ∧
    ((∀ i j, i < 2 → j < 2 → i ≠ j →
      ent (correlationCore [[(4 : ℝ), 2], [2, 9]]) i j =
        ent [[(4 : ℝ), 2], [2, 9]] i j /
          (Real.sqrt (ent [[(4 : ℝ), 2], [2, 9]] i i) *
            Real.sqrt (ent [[(4 : ℝ), 2], [2, 9]] j j))) ∧
    (∀ i, i < 2 → ent (correlationCore [[(4 : ℝ), 2], [2, 9]]) i i = 1) ∧
    (correlationCore [[(4 : ℝ), 2], [2, 9]]).length = 2 ∧
    (∀ r ∈ correlationCore [[(4 : ℝ), 2], [2, 9]], r.length = 2) ∧
    correlation (.arr2 [[4, 2], [2, 9]] true) =
      .ok [[1, 1/3], [1/3, 1]]) := by
  have hsq49 : SquareR [[(4 : ℝ), 2], [2, 9]] 2 := by
    refine ⟨rfl, ?_⟩
    intro r hr
    simp only [List.mem_cons, List.not_mem_nil, or_false] at hr
    rcases hr with rfl | rfl <;> rfl
  have hpos : ∀ i, i < 2 → 0 < ent [[(4 : ℝ), 2], [2, 9]] i i := by
    intro i hi
    interval_cases i <;> norm_num [ent]
  exact ⟨hsq49, hpos, correlation_correct [[(4 : ℝ), 2], [2, 9]] 2 hsq49 hpos⟩

/-- C5: `normalize_correlation` is idempotent in exact arithmetic: on any
square matrix with strictly positive diagonal, applying the normalisation a
second time reproduces the first result exactly (the first pass forces the
diagonal to 1, so the second pass divides by `√1 · √1 = 1` and overwrites
the diagonal with 1 again). -/
theorem correlation_idempotent (C : List (List ℝ)) (d : ℕ)
    (hsq : SquareR C d) (hpos : ∀ i, i < d → 0 < ent C i i) :
    correlationCore (correlationCore C) = correlationCore C := by
  have hsqR : SquareR (correlationCore C) d := correlationCore_square C d hsq
  have hdiagR : ∀ i, i < d → ent (correlationCore C) i i = 1 := by
    intro i hi
    rw [correlationCore_eq C d hsq, ent_mk _ hi hi, if_pos rfl]
  rw [correlationCore_eq (correlationCore C) d hsqR]
  have hentry : ((List.range d).map fun i => (List.range d).map fun j =>
      if i = j then 1
      else ent (correlationCore C) i j /
        (Real.sqrt (ent (correlationCore C) i i) *
          Real.sqrt (ent (correlationCore C) j j))) =
      (List.range d).map fun i => (List.range d).map fun j =>
        ent (correlationCore C) i j := by
    refine List.map_congr_left ?_
    intro i hi
    refine List.map_congr_left ?_
    intro j hj
    rw [List.mem_range] at hi hj
    by_cases hij : i = j
    · rw [if_pos hij, hij, hdiagR j hj]
    · rw [if_neg hij, hdiagR i hi, hdiagR j hj, Real.sqrt_one, mul_one,
        div_one]
  rw [hentry, matrix_ext_ent _ d hsqR.1 hsqR.2]

theorem correlation_idempotent_witness :
    SquareR [[(4 : ℝ), 2], [2, 9]] 2 ∧
    (∀ i, i < 2 → 0 < ent [[(4 : ℝ), 2], [2, 9]] i i) ∧
    correlationCore (correlationCore [[(4 : ℝ), 2], [2, 9]]) =
      correlationCore [[(4 : ℝ), 2], [2, 9]] := by
  have hsq49 : SquareR [[(4 : ℝ), 2], [2, 9]] 2 := by
    refine ⟨rfl, ?_⟩
    intro r hr
    simp only [List.mem_cons, List.not_mem_nil, or_false] at hr
    rcases hr with rfl | rfl <;> rfl
  have hpos : ∀ i, i < 2 → 0 < ent [[(4 : ℝ), 2], [2, 9]] i i := by
    intro i hi
    interval_cases i <;> norm_num [ent]
  exact ⟨hsq49, hpos,
    correlation_idempotent [[(4 : ℝ), 2], [2, 9]] 2 hsq49 hpos⟩

/-! ### `pca` (unsupervised_learning/dimensionality_reduction/0-pca.py)

The eigensolver `np.linalg.eig` is an external LAPACK call, passed in as a
parameter `eig : List (List ℚ) → List ℚ × List (List ℚ)` returning the
eigenvalue list `Eigs` and, column by column, the eigenvector matrix `W_all`
(so `(eig C).2` lists the columns of numpy's `W_all`, which is what the code
indexes).  The solver is modelled as total on `d × d` matrices; for real
symmetric input numpy returns a real (not complex) eigenvalue array, which is
the case covered by these rational definitions.  The complex-output case is
treated separately below with `sortedEigsC`. -/

/-- `np.argsort(Eigs)`: indices sorted stably by ascending value. -/
def argsortQ (l : List ℚ) : List ℕ :=
  (List.range l.length).mergeSort fun i j => decide (l.getD i 0 ≤ l.getD j 0)

/-- `np.cumsum`: the list of prefix sums. -/
def cumsum (l : List ℚ) : List ℚ :=
  (List.range l.length).map fun i => (l.take (i + 1)).sum

/-- `np.argmax` on a boolean array: the index of the first `True`; when every
entry is `False` the first entry is already maximal, so the result is 0. -/
def npArgmax (bs : List Bool) : ℕ :=
  if bs.any id then bs.findIdx id else 0

/-- `sorted_eigs = Eigs[np.argsort(Eigs)[::-1]]`. -/
def sortedEigsOf (es : List ℚ) : List ℚ :=
  ((argsortQ es).reverse).map fun i => es.getD i 0

/-- `sorted_W = W_all[:, np.argsort(Eigs)[::-1]]`, as the list of columns. -/
def sortedColsOf (wall : List (List ℚ)) (es : List ℚ) : List (List ℚ) :=
  ((argsortQ es).reverse).map fun i => wall.getD i []

/-- `explained_variance_ratio = np.cumsum(l) / np.sum(l)` for the (sorted)
eigenvalue list `l`. -/
def ratiosOf (l : List ℚ) : List ℚ := (cumsum l).map fun c => c / l.sum

/-- `nd = np.argmax(explained_variance_ratio >= var) + 1`. -/
def ndOf (l : List ℚ) (q : ℚ) : ℕ :=
  npArgmax ((ratiosOf l).map fun r => decide (q ≤ r)) + 1

/-- The numeric part of `pca` on its non-raising path (numeric `X` with
`n ≥ 2` rows and `d ≥ 2` columns — the `pca` wrapper below models the other
paths as the errors numpy raises): covariance matrix, eigendecomposition,
descending sort via reversed argsort, cumulative explained-variance
thresholding, and truncation to the first `nd` columns. -/
def pcaCompute (rows : List (List ℚ)) (q : ℚ)
    (eig : List (List ℚ) → List ℚ × List (List ℚ)) : List (List ℚ) :=
  (sortedColsOf (eig (covOf rows)).2 (eig (covOf rows)).1).take
    (ndOf (sortedEigsOf (eig (covOf rows)).1) q)

/-- `pca` from `0-pca.py`: `TypeError` unless `X` is an ndarray with 2-D
shape, then `ValueError` unless `var` is an `int`/`float` with
`0 < var ≤ 1`, then the pipeline.  The pipeline itself can still raise, and
those numpy error paths are modelled here:
* a non-numeric dtype makes `np.cov`'s mean computation raise `TypeError`;
* `d = 1`: `np.cov` ends with `squeeze()`, turning the `1 × 1` covariance
  into a 0-d array, and `np.linalg.eig` raises `LinAlgError` ("0-dimensional
  array given"), a `ValueError` subclass;
* `n < 2`: the float covariance entries are NaN (division by `n - 1 = 0`)
  and `np.linalg.eig`'s finiteness assertion raises `LinAlgError`;
* `d = 0`: the eigenvalue array is empty and `np.argmax` of the empty
  comparison raises `ValueError`.
All three shape-based failures are `ValueError`s (or its `LinAlgError`
subclass), so they are one `valueErr` branch, guarded by
`d < 2 ∨ n < 2`; only numeric `X` with `n ≥ 2` and `d ≥ 2` returns
a weights matrix. -/
def pca (X : PyVal) (var : PyScalar)
    (eig : List (List ℚ) → List ℚ × List (List ℚ)) :
    Except NpErr (List (List ℚ)) :=
  match X with
  | .notArr => .error .typeErr
  | .arrOther => .error .typeErr
  | .arr2 rows numeric =>
    match var with
    | .nonNum => .error .valueErr
    | .num q =>
      if ¬(0 < q ∧ q ≤ 1) then .error .valueErr
      else if numeric then
        if ncols rows < 2 ∨ rows.length < 2 then .error .valueErr
        else .ok (pcaCompute rows q eig)
      else .error .typeErr

/-- Spec-side predicate: the argument is a well-formed 2-D numeric matrix. -/
def isNumericMatrix2D : PyVal → Bool
  | .arr2 _ numeric => numeric
  | _ => false

theorem map_getD_range_eq {α : Type} (l : List α) (d : α) :
    ((List.range l.length).map fun i => l.getD i d) = l := by
  apply List.ext_getElem
  · simp
  intro i h1 h2
  rw [List.getElem_map, List.getElem_range]
  exact List.getD_eq_getElem l d h2

theorem map_getD_perm {α : Type} (l : List α) (d : α) {idx : List ℕ}
    (h : List.Perm idx (List.range l.length)) :
    List.Perm (idx.map fun i => l.getD i d) l := by
  have h2 := h.map fun i => l.getD i d
  rw [map_getD_range_eq l d] at h2
  exact h2

theorem argsortQ_perm (es : List ℚ) :
    List.Perm (argsortQ es) (List.range es.length) :=
  List.mergeSort_perm _ _

theorem argsortQ_rev_perm (es : List ℚ) :
    List.Perm (argsortQ es).reverse (List.range es.length) :=
  (List.reverse_perm _).trans (argsortQ_perm es)

theorem argsortQ_length (es : List ℚ) : (argsortQ es).length = es.length := by
  simpa using (argsortQ_perm es).length_eq

theorem sortedEigsOf_perm (es : List ℚ) : List.Perm (sortedEigsOf es) es :=
  map_getD_perm es 0 (argsortQ_rev_perm es)

theorem sortedEigsOf_length (es : List ℚ) :
    (sortedEigsOf es).length = es.length :=
  (sortedEigsOf_perm es).length_eq

theorem sortedColsOf_length (wall : List (List ℚ)) (es : List ℚ) :
    (sortedColsOf wall es).length = es.length := by
  unfold sortedColsOf
  rw [List.length_map, List.length_reverse, argsortQ_length]

/-- The reversed argsort yields a list sorted by descending value. -/
theorem sortedEigsOf_sorted (es : List ℚ) :
    (sortedEigsOf es).Pairwise (· ≥ ·) := by
  have hs : (argsortQ es).Pairwise
      fun i j => (decide (es.getD i 0 ≤ es.getD j 0)) = true := by
    apply List.sorted_mergeSort
    · intro a b c hab hbc
      rw [decide_eq_true_iff] at hab hbc ⊢
      exact le_trans hab hbc
    · intro a b
      rw [Bool.or_eq_true, decide_eq_true_iff, decide_eq_true_iff]
      exact le_total _ _
  have hrev : ((argsortQ es).reverse).Pairwise
      fun i j => es.getD j 0 ≤ es.getD i 0 := by
    rw [List.pairwise_reverse]
    exact hs.imp fun h => decide_eq_true_iff.mp h
  unfold sortedEigsOf
  rw [List.pairwise_map]
  exact hrev

theorem cumsum_length (l : List ℚ) : (cumsum l).length = l.length := by
  simp [cumsum]

theorem getD_map_of_lt {α β : Type} (f : α → β) (l : List α) {i : ℕ}
    (h : i < l.length) (d : α) (d2 : β) :
    (l.map f).getD i d2 = f (l.getD i d) := by
  rw [List.getD_eq_getElem _ _ (by simpa using h), List.getElem_map]
  exact congrArg f (List.getD_eq_getElem l d h).symm

theorem ratiosOf_length (l : List ℚ) : (ratiosOf l).length = l.length := by
  simp [ratiosOf, cumsum_length]

theorem npArgmax_of_findIdx?_some {bs : List Bool} {k : ℕ}
    (h : bs.findIdx? id = some k) : npArgmax bs = k := by
  have h1 := List.findIdx?_eq_some_iff_findIdx_eq.mp h
  have hany : bs.any id = true := by rw [← List.findIdx?_isSome, h]; rfl
  unfold npArgmax
  rw [if_pos hany, h1.2]

theorem npArgmax_of_findIdx?_none {bs : List Bool}
    (h : bs.findIdx? id = none) : npArgmax bs = 0 := by
  have hany : bs.any id = false := by rw [← List.findIdx?_isSome, h]; rfl
  unfold npArgmax
  rw [if_neg]
  simp [hany]

theorem findIdx?_decide_map (rs : List ℚ) (q : ℚ) :
    ((rs.map fun r => decide (q ≤ r)).findIdx? id) =
      rs.findIdx? fun r => decide (q ≤ r) := by
  rw [List.findIdx?_map]
  rfl

theorem ndOf_eq_of_some {l : List ℚ} {q : ℚ} {k : ℕ}
    (h : (ratiosOf l).findIdx? (fun r => decide (q ≤ r)) = some k) :
    ndOf l q = k + 1 := by
  unfold ndOf
  rw [npArgmax_of_findIdx?_some (by rw [findIdx?_decide_map, h])]

theorem ndOf_eq_of_none {l : List ℚ} {q : ℚ}
    (h : (ratiosOf l).findIdx? (fun r => decide (q ≤ r)) = none) :
    ndOf l q = 1 := by
  unfold ndOf
  rw [npArgmax_of_findIdx?_none (by rw [findIdx?_decide_map, h])]

theorem ratiosOf_all_zero {l : List ℚ} (h : l.sum = 0) :
    ∀ r ∈ ratiosOf l, r = 0 := by
  intro r hr
  unfold ratiosOf at hr
  rw [List.mem_map] at hr
  obtain ⟨c, _, rfl⟩ := hr
  rw [h, div_zero]

/-- When the eigenvalue total is nonzero, the final cumulative ratio is
exactly 1 (this is why `np.argmax` always finds a hit for `var ≤ 1`). -/
theorem ratiosOf_last {l : List ℚ} (hne : l ≠ []) (h : l.sum ≠ 0) :
    ∃ k, k < (ratiosOf l).length ∧ (ratiosOf l).getD k 0 = 1 := by
  have hpos : 0 < l.length := List.length_pos.mpr hne
  refine ⟨l.length - 1, ?_, ?_⟩
  · rw [ratiosOf_length]; omega
  · have hg : (cumsum l).getD (l.length - 1) 0 = l.sum := by
      unfold cumsum
      rw [getD_map_range _ (by omega : l.length - 1 < l.length) 0]
      rw [show l.length - 1 + 1 = l.length by omega, List.take_length]
    unfold ratiosOf
    rw [getD_map_of_lt _ _ (by rw [cumsum_length]; omega) 0 0, hg, div_self h]

theorem ndOf_mono (l : List ℚ) {v1 v2 : ℚ} (h1 : 0 < v1) (h12 : v1 ≤ v2)
    (h2 : v2 ≤ 1) : ndOf l v1 ≤ ndOf l v2 := by
  by_cases hne : l = []
  · subst hne
    rw [@ndOf_eq_of_none [] v1 rfl, @ndOf_eq_of_none [] v2 rfl]
  by_cases hsum : l.sum = 0
  · have hz := ratiosOf_all_zero hsum
    have hnone : ∀ v : ℚ, 0 < v →
        (ratiosOf l).findIdx? (fun r => decide (v ≤ r)) = none := by
      intro v hv
      rw [List.findIdx?_eq_none_iff]
      intro x hx
      rw [hz x hx]
      simp only [decide_eq_false_iff_not]
      linarith
    rw [ndOf_eq_of_none (hnone v1 h1),
      ndOf_eq_of_none (hnone v2 (lt_of_lt_of_le h1 h12))]
  · obtain ⟨k, hk, hk1⟩ := ratiosOf_last hne hsum
    have hx : (ratiosOf l).getD k 0 ∈ ratiosOf l := by
      rw [List.getD_eq_getElem _ _ hk]
      exact List.getElem_mem _
    have hex2 : ∃ x, x ∈ ratiosOf l ∧ decide (v2 ≤ x) = true :=
      ⟨_, hx, by rw [hk1]; exact decide_eq_true h2⟩
    have hex1 : ∃ x, x ∈ ratiosOf l ∧ decide (v1 ≤ x) = true :=
      ⟨_, hx, by rw [hk1]; exact decide_eq_true (le_trans h12 h2)⟩
    rw [ndOf_eq_of_some (List.findIdx?_eq_some_of_exists hex1),
      ndOf_eq_of_some (List.findIdx?_eq_some_of_exists hex2)]
    have hmono : (ratiosOf l).findIdx (fun r => decide (v1 ≤ r)) ≤
        (ratiosOf l).findIdx (fun r => decide (v2 ≤ r)) := by
      apply List.findIdx_le_findIdx
      intro x _ hx2
      rw [decide_eq_true_iff] at hx2 ⊢
      linarith
    omega

theorem npArgmax_lt {bs : List Bool} (h : bs ≠ []) :
    npArgmax bs < bs.length := by
  unfold npArgmax
  split
  · next hany =>
    exact List.findIdx_lt_length.mpr (by simpa [List.any_eq_true] using hany)
  · exact List.length_pos.mpr h

theorem ndOf_le {l : List ℚ} (q : ℚ) (h : l ≠ []) : ndOf l q ≤ l.length := by
  have hlen : ((ratiosOf l).map fun r => decide (q ≤ r)).length = l.length := by
    rw [List.length_map, ratiosOf_length]
  have hne : ((ratiosOf l).map fun r => decide (q ≤ r)) ≠ [] := by
    apply List.length_pos.mp
    rw [hlen]
    exact List.length_pos.mpr h
  have := npArgmax_lt hne
  unfold ndOf
  omega

theorem map_range_zip (es : List ℚ) (wall : List (List ℚ))
    (h : wall.length = es.length) :
    ((List.range es.length).map fun i => (es.getD i 0, wall.getD i [])) =
      es.zip wall := by
  apply List.ext_getElem?
  intro i
  rcases Nat.lt_or_ge i es.length with hi | hi
  · rw [getElem?_map_range _ hi, List.zip_eq_zipWith, List.getElem?_zipWith',
      getElem?_eq_some_getD es 0 hi, getElem?_eq_some_getD wall [] (by omega)]
    rfl
  · rw [List.getElem?_eq_none (by simp; omega),
      List.getElem?_eq_none (by rw [List.length_zip]; omega)]

theorem sorted_zip_eq (es : List ℚ) (wall : List (List ℚ)) :
    (sortedEigsOf es).zip (sortedColsOf wall es) =
      ((argsortQ es).reverse).map fun i => (es.getD i 0, wall.getD i []) := by
  unfold sortedEigsOf sortedColsOf
  rw [List.zip_map']

theorem sorted_zip_perm (es : List ℚ) (wall : List (List ℚ))
    (h : wall.length = es.length) :
    List.Perm ((sortedEigsOf es).zip (sortedColsOf wall es)) (es.zip wall) := by
  rw [sorted_zip_eq]
  have hp := (argsortQ_rev_perm es).map fun i => (es.getD i 0, wall.getD i [])
  rw [map_range_zip es wall h] at hp
  exact hp

theorem pca_ok (rows : List (List ℚ)) (q : ℚ)
    (eig : List (List ℚ) → List ℚ × List (List ℚ)) (hq : 0 < q ∧ q ≤ 1)
    (hn : 2 ≤ rows.length) (hd2 : 2 ≤ ncols rows) :
    pca (.arr2 rows true) (.num q) eig = .ok (pcaCompute rows q eig) := by
  show (if ¬(0 < q ∧ q ≤ 1) then Except.error NpErr.valueErr
    else if true then
      if ncols rows < 2 ∨ rows.length < 2 then Except.error NpErr.valueErr
      else Except.ok (pcaCompute rows q eig)
    else Except.error NpErr.typeErr) = Except.ok (pcaCompute rows q eig)
  rw [if_neg (not_not_intro hq), if_pos rfl, if_neg (by omega)]

theorem sortedColsOf_mem {wall : List (List ℚ)} {es : List ℚ} {c : List ℚ}
    (hc : c ∈ sortedColsOf wall es) :
    ∃ i, i < es.length ∧ c = wall.getD i [] := by
  unfold sortedColsOf at hc
  rw [List.mem_map] at hc
  obtain ⟨i, hi, rfl⟩ := hc
  refine ⟨i, ?_, rfl⟩
  have : i ∈ List.range es.length := (argsortQ_rev_perm es).mem_iff.mp hi
  simpa using this

/-- C1 (amended): on a valid input with `n ≥ 2` rows, `d ≥ 2` columns and
`var ∈ (0,1]` (at `d = 1` the program instead raises `LinAlgError`, because
`np.cov` squeezes the `1 × 1` covariance to a 0-d array that
`np.linalg.eig` rejects), `pca` computes the unbiased covariance of `X`, pairs the
eigensolver's eigenvalues with its eigenvector columns, sorts the pairs by
descending eigenvalue (the sorted pairs are a permutation of the solver
output), and returns the first `nd` sorted eigenvectors as columns (each of
length `d`, and exactly `nd` of them), where `nd = k + 1` whenever `k` is the
first index whose cumulative explained-variance ratio reaches `var`, and
`nd = 1` when no prefix reaches the threshold (the `np.argmax` fallback on an
all-False comparison, which happens exactly when the total variance is
zero). -/
theorem pca_correct (rows : List (List ℚ)) (d : ℕ) (q : ℚ)
    (eig : List (List ℚ) → List ℚ × List (List ℚ))
    (hn : 2 ≤ rows.length) (hd : Rect rows d) (hd2 : 2 ≤ d)
    (hq : 0 < q ∧ q ≤ 1)
    (hes : (eig (covOf rows)).1.length = d)
    (hwall : (eig (covOf rows)).2.length = d)
    (hwcols : ∀ c ∈ (eig (covOf rows)).2, c.length = d) :
    ∃ sortedPairs : List (ℚ × List ℚ),
      List.Perm sortedPairs ((eig (covOf rows)).1.zip (eig (covOf rows)).2) ∧
      (sortedPairs.map Prod.fst).Pairwise (· ≥ ·) ∧
      (∀ j k, j < d → k < d →
        ent (covOf rows) j k =
          dotQ (colOf (centeredRows rows) j) (colOf (centeredRows rows) k) /
            ((rows.length : ℚ) - 1)) ∧
      pca (.arr2 rows true) (.num q) eig =
        .ok ((sortedPairs.map Prod.snd).take
          (ndOf (sortedPairs.map Prod.fst) q)) ∧
      (∀ k, (ratiosOf (sortedPairs.map Prod.fst)).findIdx?
          (fun r => decide (q ≤ r)) = some k →
        ndOf (sortedPairs.map Prod.fst) q = k + 1 ∧
        q ≤ (ratiosOf (sortedPairs.map Prod.fst)).getD k 0 ∧
        ∀ m, m < k → ¬ q ≤ (ratiosOf (sortedPairs.map Prod.fst)).getD m 0) ∧
      ((ratiosOf (sortedPairs.map Prod.fst)).findIdx?
          (fun r => decide (q ≤ r)) = none →
        ndOf (sortedPairs.map Prod.fst) q = 1) ∧
      (∀ c ∈ (sortedPairs.map Prod.snd).take
          (ndOf (sortedPairs.map Prod.fst) q), c.length = d) ∧
      ((sortedPairs.map Prod.snd).take
          (ndOf (sortedPairs.map Prod.fst) q)).length =
        ndOf (sortedPairs.map Prod.fst) q := by
  have hcn : ncols rows = d := ncols_eq_of_rect (by omega) hd
  have hfst : ((sortedEigsOf (eig (covOf rows)).1).zip
      (sortedColsOf (eig (covOf rows)).2 (eig (covOf rows)).1)).map Prod.fst =
      sortedEigsOf (eig (covOf rows)).1 :=
    List.map_fst_zip _ _
      (by rw [sortedEigsOf_length, sortedColsOf_length])
  have hsnd : ((sortedEigsOf (eig (covOf rows)).1).zip
      (sortedColsOf (eig (covOf rows)).2 (eig (covOf rows)).1)).map Prod.snd =
      sortedColsOf (eig (covOf rows)).2 (eig (covOf rows)).1 :=
    List.map_snd_zip _ _
      (by rw [sortedEigsOf_length, sortedColsOf_length])
  refine ⟨(sortedEigsOf (eig (covOf rows)).1).zip
    (sortedColsOf (eig (covOf rows)).2 (eig (covOf rows)).1),
    ?_, ?_, ?_, ?_, ?_, ?_, ?_, ?_⟩
  case refine_1 => exact sorted_zip_perm _ _ (hwall.trans hes.symm)
  case refine_2 =>
    rw [hfst]
    exact sortedEigsOf_sorted _
  case refine_3 =>
    intro j k hj hk
    exact covOf_entry rows j k (by omega) (by omega)
  case refine_4 =>
    rw [hfst, hsnd]
    exact pca_ok rows q eig hq hn (by omega)
  case refine_5 =>
    rw [hfst]
    intro k hk
    refine ⟨ndOf_eq_of_some hk, ?_⟩
    obtain ⟨hlt, hp, hprev⟩ := List.findIdx?_eq_some_iff_getElem.mp hk
    constructor
    · rw [List.getD_eq_getElem _ _ hlt]
      exact decide_eq_true_iff.mp hp
    · intro m hm
      rw [List.getD_eq_getElem _ _ (by omega)]
      have := hprev m hm
      simpa using this
  case refine_6 =>
    rw [hfst]
    exact fun h => ndOf_eq_of_none h
  case refine_7 =>
    rw [hfst, hsnd]
    intro c hc
    have hc2 : c ∈ sortedColsOf (eig (covOf rows)).2 (eig (covOf rows)).1 :=
      (List.take_sublist _ _).subset hc
    obtain ⟨i, hi, rfl⟩ := sortedColsOf_mem hc2
    have hib : i < (eig (covOf rows)).2.length := by omega
    rw [List.getD_eq_getElem _ _ hib]
    exact hwcols _ (List.getElem_mem _)
  case refine_8 =>
    rw [hfst, hsnd]
    have hne : sortedEigsOf (eig (covOf rows)).1 ≠ [] := by
      apply List.length_pos.mp
      rw [sortedEigsOf_length, hes]
      omega
    have hle : ndOf (sortedEigsOf (eig (covOf rows)).1) q ≤ d := by
      have := ndOf_le q hne
      rw [sortedEigsOf_length, hes] at this
      exact this
    rw [List.length_take, sortedColsOf_length, hes]
    omega

theorem pca_correct_witness :
    2 ≤ ([[(1 : ℚ), 0], [-1, 0]]).length ∧ Rect [[(1 : ℚ), 0], [-1, 0]] 2 ∧
    ((0 : ℚ) < 1/2 ∧ (1/2 : ℚ) ≤ 1) ∧
    ∃ sortedPairs : List (ℚ × List ℚ),
      List.Perm sortedPairs
        (([2, 0] : List ℚ).zip [[(1 : ℚ), 0], [0, 1]]) ∧
      (sortedPairs.map Prod.fst).Pairwise (· ≥ ·) ∧
      (∀ j k, j < 2 → k < 2 →
        ent (covOf [[(1 : ℚ), 0], [-1, 0]]) j k =
          dotQ (colOf (centeredRows [[(1 : ℚ), 0], [-1, 0]]) j)
              (colOf (centeredRows [[(1 : ℚ), 0], [-1, 0]]) k) /
            ((([[(1 : ℚ), 0], [-1, 0]] : List (List ℚ)).length : ℚ) - 1)) ∧
      pca (.arr2 [[1, 0], [-1, 0]] true) (.num (1/2))
          (fun _ => ([2, 0], [[1, 0], [0, 1]])) =
        .ok ((sortedPairs.map Prod.snd).take
          (ndOf (sortedPairs.map Prod.fst) (1/2))) ∧
      (∀ k, (ratiosOf (sortedPairs.map Prod.fst)).findIdx?
          (fun r => decide ((1/2 : ℚ) ≤ r)) = some k →
        ndOf (sortedPairs.map Prod.fst) (1/2) = k + 1 ∧
        (1/2 : ℚ) ≤ (ratiosOf (sortedPairs.map Prod.fst)).getD k 0 ∧
        ∀ m, m < k →
          ¬ (1/2 : ℚ) ≤ (ratiosOf (sortedPairs.map Prod.fst)).getD m 0) ∧
      ((ratiosOf (sortedPairs.map Prod.fst)).findIdx?
          (fun r => decide ((1/2 : ℚ) ≤ r)) = none →
        ndOf (sortedPairs.map Prod.fst) (1/2) = 1) ∧
      (∀ c ∈ (sortedPairs.map Prod.snd).take
          (ndOf (sortedPairs.map Prod.fst) (1/2)), c.length = 2) ∧
      ((sortedPairs.map Prod.snd).take
          (ndOf (sortedPairs.map Prod.fst) (1/2))).length =
        ndOf (sortedPairs.map Prod.fst) (1/2) :=
  ⟨by decide, by unfold Rect; decide, by norm_num,
    pca_correct [[1, 0], [-1, 0]] 2 (1/2)
      (fun _ => ([2, 0], [[1, 0], [0, 1]]))
      (by decide) (by unfold Rect; decide) le_rfl (by norm_num) rfl rfl
      (by
        intro c hc
        simp only [List.mem_cons, List.not_mem_nil, or_false] at hc
        rcases hc with rfl | rfl <;> rfl)⟩

/-- C1 counterexample: the all-zero matrix `[[0,0],[0,0]]` is a valid input
(2-D numeric, `n = 2 ≥ 2`, `var = 1/2 ∈ (0,1]`) whose covariance is the zero
matrix; the eigensolver returns eigenvalues `[0, 0]` with the identity
eigenvector matrix, every cumulative explained-variance ratio is degenerate
(numpy: NaN; here 0), so no count of leading components reaches the
threshold — yet the code still returns one eigenvector column.  The claim's
defining description of `nd` (the smallest count reaching the threshold)
denotes nothing on this input. -/
theorem pca_correct_cex :
    pca (.arr2 [[0, 0], [0, 0]] true) (.num (1/2))
      (fun _ => ([0, 0], [[1, 0], [0, 1]])) = .ok [[0, 1]] ∧
    (∀ k, k < (ratiosOf (sortedEigsOf [0, 0])).length →
      ¬ ((1/2 : ℚ) ≤ (ratiosOf (sortedEigsOf [0, 0])).getD k 0)) := by
  have hargs : argsortQ [0, 0] = [0, 1] := by
    unfold argsortQ
    rw [show List.range ([0, 0] : List ℚ).length = [0, 1] from rfl]
    apply List.mergeSort_of_sorted
    decide
  have hsorted : sortedEigsOf [0, 0] = [0, 0] := by
    unfold sortedEigsOf
    rw [hargs]
    rfl
  have hratios : ratiosOf ([0, 0] : List ℚ) = [0, 0] := by
    unfold ratiosOf cumsum
    norm_num [List.range_succ]
  have hnone : (ratiosOf (sortedEigsOf [0, 0])).findIdx?
      (fun r => decide ((1/2 : ℚ) ≤ r)) = none := by
    rw [hsorted, hratios]
    rw [List.findIdx?_eq_none_iff]
    intro x hx
    simp only [List.mem_cons, List.not_mem_nil, or_false] at hx
    rcases hx with rfl | rfl <;> norm_num
  constructor
  · rw [pca_ok _ _ _ (by norm_num) (by decide) (by decide)]
    refine congrArg Except.ok ?_
    show (sortedColsOf [[1, 0], [0, 1]] [0, 0]).take
      (ndOf (sortedEigsOf [0, 0]) (1/2)) = _
    rw [ndOf_eq_of_none hnone]
    unfold sortedColsOf
    rw [hargs]
    rfl
  · rw [hsorted, hratios]
    intro k hk
    simp only [List.length_cons, List.length_nil] at hk
    interval_cases k <;> norm_num

/-- C4 (amended): for a fixed matrix with at least two rows and two feature
columns — the inputs on which both calls actually return a weights matrix —
and a fixed eigensolver, the number of retained columns is non-decreasing in
the variance target: the threshold comparison holds at fewer indices for a
larger target, so the first hit (and hence `nd`) can only move right; when
the total variance is zero neither target is ever reached and both sides
retain one column.  At `d = 1` both calls raise `LinAlgError` instead and
there are no column counts to compare. -/
theorem pca_monotone (rows : List (List ℚ))
    (eig : List (List ℚ) → List ℚ × List (List ℚ)) (v1 v2 : ℚ)
    (hn : 2 ≤ rows.length) (hd2 : 2 ≤ ncols rows)
    (h1 : 0 < v1) (h12 : v1 ≤ v2) (h2 : v2 ≤ 1) :
    ∃ W1 W2, pca (.arr2 rows true) (.num v1) eig = .ok W1 ∧
      pca (.arr2 rows true) (.num v2) eig = .ok W2 ∧
      W1.length ≤ W2.length := by
  refine ⟨_, _, pca_ok rows v1 eig ⟨h1, le_trans h12 h2⟩ hn hd2,
    pca_ok rows v2 eig ⟨lt_of_lt_of_le h1 h12, h2⟩ hn hd2, ?_⟩
  unfold pcaCompute
  rw [List.length_take, List.length_take]
  have := ndOf_mono (sortedEigsOf (eig (covOf rows)).1) h1 h12 h2
  omega

theorem pca_monotone_witness :
    2 ≤ ([[(1 : ℚ), 0], [-1, 0]]).length ∧
    2 ≤ ncols [[(1 : ℚ), 0], [-1, 0]] ∧
    (0 : ℚ) < 1/3 ∧ (1/3 : ℚ) ≤ 1/2 ∧ (1/2 : ℚ) ≤ 1 ∧
    ∃ W1 W2,
      pca (.arr2 [[1, 0], [-1, 0]] true) (.num (1/3))
        (fun _ => ([2, 0], [[1, 0], [0, 1]])) = .ok W1 ∧
      pca (.arr2 [[1, 0], [-1, 0]] true) (.num (1/2))
        (fun _ => ([2, 0], [[1, 0], [0, 1]])) = .ok W2 ∧
      W1.length ≤ W2.length :=
  ⟨by decide, by decide, by norm_num, by norm_num, by norm_num,
    pca_monotone [[1, 0], [-1, 0]] (fun _ => ([2, 0], [[1, 0], [0, 1]]))
      (1/3) (1/2) (by decide) (by decide)
      (by norm_num) (by norm_num) (by norm_num)⟩

/-- C4 counterexample: the single-column centered matrix `[[1], [-1]]` is a
valid input under the claim (2-D numeric, `n = 2`, `d = 1`, both targets in
`(0,1]`), but both calls raise: `np.cov` squeezes the `1 × 1` covariance to
a 0-d array and `np.linalg.eig` raises `LinAlgError` (a `ValueError`
subclass), so neither call returns a weights matrix and the column counts
the claim compares do not exist. -/
theorem pca_monotone_cex :
    pca (.arr2 [[1], [-1]] true) (.num (1/3)) (fun _ => ([2], [[1]])) =
      .error .valueErr ∧
    pca (.arr2 [[1], [-1]] true) (.num (1/2)) (fun _ => ([2], [[1]])) =
      .error .valueErr ∧
    ¬ ∃ W, pca (.arr2 [[1], [-1]] true) (.num (1/3))
        (fun _ => ([2], [[1]])) = .ok W := by
  have h3 : pca (.arr2 [[1], [-1]] true) (.num (1/3))
      (fun _ => ([2], [[1]])) = .error .valueErr := by
    show (if ¬((0 : ℚ) < 1/3 ∧ (1/3 : ℚ) ≤ 1) then Except.error NpErr.valueErr
      else if true then
        if ncols [[1], [-1]] < 2 ∨ ([[1], [-1]] : List (List ℚ)).length < 2
          then Except.error NpErr.valueErr
        else Except.ok (pcaCompute [[1], [-1]] (1/3) (fun _ => ([2], [[1]])))
      else Except.error NpErr.typeErr) = Except.error NpErr.valueErr
    rw [if_neg (not_not_intro (by norm_num)), if_pos rfl, if_pos (by decide)]
  have h2 : pca (.arr2 [[1], [-1]] true) (.num (1/2))
      (fun _ => ([2], [[1]])) = .error .valueErr := by
    show (if ¬((0 : ℚ) < 1/2 ∧ (1/2 : ℚ) ≤ 1) then Except.error NpErr.valueErr
      else if true then
        if ncols [[1], [-1]] < 2 ∨ ([[1], [-1]] : List (List ℚ)).length < 2
          then Except.error NpErr.valueErr
        else Except.ok (pcaCompute [[1], [-1]] (1/2) (fun _ => ([2], [[1]])))
      else Except.error NpErr.typeErr) = Except.error NpErr.valueErr
    rw [if_neg (not_not_intro (by norm_num)), if_pos rfl, if_pos (by decide)]
  refine ⟨h3, h2, ?_⟩
  rintro ⟨W, hW⟩
  rw [h3] at hW
  exact Except.noConfusion hW

/-- C10 (amended): on a valid input with `n ≥ 2` rows, `d ≥ 2` columns,
`var ∈ (0,1]` and the eigensolver returning `d` eigenvalues, the returned
weights matrix has at least one and at most `d` columns:
`nd = argmax + 1 ≥ 1` always, and the argmax index is below the length-`d`
ratio list.  At `d = 1` the program raises `LinAlgError` instead and
returns no weights matrix at all. -/
theorem pca_column_bounds (rows : List (List ℚ)) (d : ℕ) (q : ℚ)
    (eig : List (List ℚ) → List ℚ × List (List ℚ))
    (hn : 2 ≤ rows.length) (hd : Rect rows d) (hd2 : 2 ≤ d)
    (hq : 0 < q ∧ q ≤ 1)
    (hes : (eig (covOf rows)).1.length = d) :
    ∃ W, pca (.arr2 rows true) (.num q) eig = .ok W ∧
      1 ≤ W.length ∧ W.length ≤ d := by
  have hcn : ncols rows = d := ncols_eq_of_rect (by omega) hd
  refine ⟨_, pca_ok rows q eig hq hn (by omega), ?_, ?_⟩
  · unfold pcaCompute
    rw [List.length_take, sortedColsOf_length, hes]
    have hone : 1 ≤ ndOf (sortedEigsOf (eig (covOf rows)).1) q := by
      unfold ndOf
      omega
    omega
  · unfold pcaCompute
    rw [List.length_take, sortedColsOf_length, hes]
    omega

theorem pca_column_bounds_witness :
    2 ≤ ([[(1 : ℚ), 0], [-1, 0]]).length ∧
    Rect [[(1 : ℚ), 0], [-1, 0]] 2 ∧ 2 ≤ 2 ∧
    ((0 : ℚ) < 1/2 ∧ (1/2 : ℚ) ≤ 1) ∧
    ((fun _ => ([2, 0], [[1, 0], [0, 1]]) :
      List (List ℚ) → List ℚ × List (List ℚ))
        (covOf [[1, 0], [-1, 0]])).1.length = 2 ∧
    ∃ W, pca (.arr2 [[1, 0], [-1, 0]] true) (.num (1/2))
        (fun _ => ([2, 0], [[1, 0], [0, 1]])) = .ok W ∧
      1 ≤ W.length ∧ W.length ≤ 2 :=
  ⟨by decide, by unfold Rect; decide, le_rfl, by norm_num, rfl,
    pca_column_bounds [[1, 0], [-1, 0]] 2 (1/2)
      (fun _ => ([2, 0], [[1, 0], [0, 1]]))
      (by decide) (by unfold Rect; decide) le_rfl (by norm_num) rfl⟩

/-- C10 counterexample: `[[1], [-1]]` is a valid input under the claim (2-D
numeric, `n = 2 ≥ 2`, `var = 1/2 ∈ (0,1]`, `d = 1`) but the program returns
no weights matrix at all: `np.cov` squeezes the `1 × 1` covariance to a 0-d
array and `np.linalg.eig` raises `LinAlgError` (a `ValueError` subclass), so
there is no matrix with between 1 and `d` columns. -/
theorem pca_column_bounds_cex :
    pca (.arr2 [[1], [-1]] true) (.num (1/2)) (fun _ => ([2], [[1]])) =
      .error .valueErr ∧
    ¬ ∃ W, pca (.arr2 [[1], [-1]] true) (.num (1/2))
        (fun _ => ([2], [[1]])) = .ok W := by
  have h : pca (.arr2 [[1], [-1]] true) (.num (1/2))
      (fun _ => ([2], [[1]])) = .error .valueErr := by
    show (if ¬((0 : ℚ) < 1/2 ∧ (1/2 : ℚ) ≤ 1) then Except.error NpErr.valueErr
      else if true then
        if ncols [[1], [-1]] < 2 ∨ ([[1], [-1]] : List (List ℚ)).length < 2
          then Except.error NpErr.valueErr
        else Except.ok (pcaCompute [[1], [-1]] (1/2) (fun _ => ([2], [[1]])))
      else Except.error NpErr.typeErr) = Except.error NpErr.valueErr
    rw [if_neg (not_not_intro (by norm_num)), if_pos rfl, if_pos (by decide)]
  refine ⟨h, ?_⟩
  rintro ⟨W, hW⟩
  rw [h] at hW
  exact Except.noConfusion hW

/-- C7 (amended): `mean_cov` raises `TypeError` exactly when the input is not
an ndarray with `ndim == 2`, or is a 2-D ndarray with non-numeric entries and
at least 2 rows (the error then comes from the `np.mean` reduction); it
raises `ValueError` exactly when the input is a 2-D ndarray — of any dtype —
with fewer than 2 rows (the shape check precedes any entry access); it
returns a result exactly on numeric 2-D ndarrays with at least 2 rows, and a
1-row matrix always raises `ValueError`. -/
theorem mean_cov_validation (v : PyVal) :
    (mean_cov v = .error .typeErr ↔
      (v = .notArr ∨ v = .arrOther ∨
        ∃ rows, v = .arr2 rows false ∧ 2 ≤ rows.length)) ∧
    (mean_cov v = .error .valueErr ↔
      ∃ rows b, v = .arr2 rows b ∧ rows.length < 2) ∧
    ((∃ P, mean_cov v = .ok P) ↔
      ∃ rows, v = .arr2 rows true ∧ 2 ≤ rows.length) ∧
    (∀ r : List ℚ, mean_cov (.arr2 [r] true) = .error .valueErr) := by
  refine ⟨?_, ?_, ?_, fun r => rfl⟩
  · cases v with
    | notArr => simp [mean_cov]
    | arrOther => simp [mean_cov]
    | arr2 rows numeric =>
      by_cases hlen : rows.length < 2
      · cases numeric <;> simp [mean_cov, hlen] <;> omega
      · cases numeric <;> simp [mean_cov, hlen] <;> omega
  · cases v with
    | notArr => simp [mean_cov]
    | arrOther => simp [mean_cov]
    | arr2 rows numeric =>
      by_cases hlen : rows.length < 2
      · cases numeric <;> simp [mean_cov, hlen]
      · cases numeric <;> simp [mean_cov, hlen] <;> omega
  · cases v with
    | notArr => simp [mean_cov]
    | arrOther => simp [mean_cov]
    | arr2 rows numeric =>
      by_cases hlen : rows.length < 2
      · cases numeric <;> simp [mean_cov, hlen] <;> omega
      · cases numeric <;> simp [mean_cov, hlen] <;> omega

/-- C7 counterexample: a 1-row 2-D ndarray with non-numeric entries is not a
2-D numeric matrix, yet `mean_cov` raises `ValueError` (the row-count check),
not the `TypeError` the claim's `if and only if` requires. -/
theorem mean_cov_validation_cex :
    mean_cov (.arr2 [[0]] false) = .error .valueErr ∧
    mean_cov (.arr2 [[0]] false) ≠ .error .typeErr ∧
    isNumericMatrix2D (.arr2 [[0]] false) = false := by
  refine ⟨rfl, ?_, rfl⟩
  intro h
  have h2 : (Except.error NpErr.valueErr :
      Except NpErr (List (List ℚ) × List (List ℚ))) =
      Except.error NpErr.typeErr := h
  injection h2 with h3
  exact NpErr.noConfusion h3

/-- C8 (amended): `correlation` raises `TypeError` exactly when the input is
not an ndarray, or is a square 2-D ndarray with non-numeric entries (the
`np.sqrt` ufunc rejects the dtype); it raises `ValueError` exactly when the
input is an ndarray — of any dtype — that is not square 2-dimensional (the
shape check precedes any entry access); it returns normally exactly on
square 2-D numeric matrices. -/
theorem correlation_validation (v : PyVal) :
    (correlation v = .error .typeErr ↔
      (v = .notArr ∨
        ∃ rows, v = .arr2 rows false ∧ rows.length = ncols rows)) ∧
    (correlation v = .error .valueErr ↔
      (v = .arrOther ∨
        ∃ rows b, v = .arr2 rows b ∧ rows.length ≠ ncols rows)) ∧
    ((∃ M, correlation v = .ok M) ↔
      ∃ rows, v = .arr2 rows true ∧ rows.length = ncols rows) := by
  refine ⟨?_, ?_, ?_⟩
  · cases v with
    | notArr => simp [correlation]
    | arrOther => simp [correlation]
    | arr2 rows numeric =>
      by_cases hsq : rows.length = ncols rows
      · cases numeric <;> simp [correlation, hsq]
      · cases numeric <;> simp [correlation, hsq]
  · cases v with
    | notArr => simp [correlation]
    | arrOther => simp [correlation]
    | arr2 rows numeric =>
      by_cases hsq : rows.length = ncols rows
      · cases numeric <;> simp [correlation, hsq]
      · cases numeric <;> simp [correlation, hsq]
  · cases v with
    | notArr => simp [correlation]
    | arrOther => simp [correlation]
    | arr2 rows numeric =>
      by_cases hsq : rows.length = ncols rows
      · cases numeric <;> simp [correlation, hsq]
      · cases numeric <;> simp [correlation, hsq]

/-- C8 counterexample: a non-square 2-D ndarray with non-numeric entries is
not numeric, yet `correlation` raises `ValueError` (the shape check), not
the `TypeError` the claim requires for every non-numeric input. -/
theorem correlation_validation_cex :
    correlation (.arr2 [[0], [0]] false) = .error .valueErr ∧
    correlation (.arr2 [[0], [0]] false) ≠ .error .typeErr ∧
    isNumericMatrix2D (.arr2 [[0], [0]] false) = false := by
  refine ⟨rfl, ?_, rfl⟩
  intro h
  have h2 : (Except.error NpErr.valueErr : Except NpErr (List (List ℝ))) =
      Except.error NpErr.typeErr := h
  injection h2 with h3
  exact NpErr.noConfusion h3

/-- C9 (amended): `pca` raises `TypeError` exactly when `X` is not an ndarray
with 2-D shape, or is a 2-D ndarray with non-numeric entries and `var` is a
valid int/float in `(0, 1]` (the error then comes from `np.cov`); it raises
`ValueError` exactly when `X` is a 2-D ndarray — of any dtype — and `var` is
not an int/float in `(0, 1]`, or `X` is a numeric 2-D ndarray with valid
`var` but fewer than 2 columns or fewer than 2 rows (at `d = 1`
`np.linalg.eig` raises `LinAlgError`, a `ValueError` subclass, on the 0-d
squeezed covariance; at `n < 2` its finiteness check raises `LinAlgError` on
the NaN covariance; at `d = 0` `np.argmax` of the empty comparison raises
`ValueError`); it returns a weights matrix exactly on numeric 2-D input with
valid `var`, at least 2 rows and at least 2 columns.  `var = 1.5` raises
`ValueError` and `var = 1` is accepted on such input. -/
theorem pca_validation (v : PyVal) (s : PyScalar)
    (eig : List (List ℚ) → List ℚ × List (List ℚ)) :
    (pca v s eig = .error .typeErr ↔
      (v = .notArr ∨ v = .arrOther ∨
        ∃ rows, v = .arr2 rows false ∧
          ∃ q, s = .num q ∧ 0 < q ∧ q ≤ 1)) ∧
    (pca v s eig = .error .valueErr ↔
      (((∃ rows b, v = .arr2 rows b) ∧
        (s = .nonNum ∨ ∃ q, s = .num q ∧ ¬(0 < q ∧ q ≤ 1))) ∨
       (∃ rows, v = .arr2 rows true ∧
         (∃ q, s = .num q ∧ 0 < q ∧ q ≤ 1) ∧
         (ncols rows < 2 ∨ rows.length < 2)))) ∧
    ((∃ W, pca v s eig = .ok W) ↔
      (∃ rows, v = .arr2 rows true ∧
        (∃ q, s = .num q ∧ 0 < q ∧ q ≤ 1) ∧
        2 ≤ ncols rows ∧ 2 ≤ rows.length)) ∧
    pca (.arr2 [[0, 0], [0, 0]] true) (.num (3/2)) eig = .error .valueErr ∧
    (∃ W, pca (.arr2 [[0, 0], [0, 0]] true) (.num 1) eig = .ok W) := by
  refine ⟨?_, ?_, ?_, ?_,
    ⟨_, pca_ok [[0, 0], [0, 0]] 1 eig (by norm_num) (by decide) (by decide)⟩⟩
  · cases v with
    | notArr => simp [pca]
    | arrOther => simp [pca]
    | arr2 rows numeric =>
      cases s with
      | nonNum => simp [pca]
      | num q =>
        by_cases hq : 0 < q ∧ q ≤ 1
        · by_cases hsh : ncols rows < 2 ∨ rows.length < 2 <;>
            cases numeric <;> simp [pca, hq, hsh]
        · cases numeric <;> simp [pca, hq]
  · cases v with
    | notArr => simp [pca]
    | arrOther => simp [pca]
    | arr2 rows numeric =>
      cases s with
      | nonNum => simp [pca]
      | num q =>
        by_cases hq : 0 < q ∧ q ≤ 1
        · by_cases hsh : ncols rows < 2 ∨ rows.length < 2 <;>
            cases numeric <;> simp [pca, hq, hsh] <;> omega
        · cases numeric <;>
            · simp [pca, hq]
              intro h0
              by_contra hc
              exact hq ⟨h0, not_lt.mp hc⟩
  · cases v with
    | notArr => simp [pca]
    | arrOther => simp [pca]
    | arr2 rows numeric =>
      cases s with
      | nonNum => simp [pca]
      | num q =>
        by_cases hq : 0 < q ∧ q ≤ 1
        · by_cases hsh : ncols rows < 2 ∨ rows.length < 2 <;>
            cases numeric <;> simp [pca, hq, hsh] <;> omega
        · cases numeric <;> simp [pca, hq]
  · show (if ¬((0 : ℚ) < 3/2 ∧ (3/2 : ℚ) ≤ 1) then Except.error NpErr.valueErr
      else if true then
        if ncols [[0, 0], [0, 0]] < 2 ∨
            ([[0, 0], [0, 0]] : List (List ℚ)).length < 2
          then Except.error NpErr.valueErr
        else Except.ok (pcaCompute [[0, 0], [0, 0]] (3/2) eig)
      else Except.error NpErr.typeErr) = Except.error NpErr.valueErr
    rw [if_pos (by norm_num)]

/-- C9 counterexample: a 2-D ndarray with non-numeric entries is not a 2-D
numeric matrix, yet with `var = 1.5` the code raises `ValueError` (the `var`
check fires first), not the `TypeError` the claim's `if and only if`
requires. -/
theorem pca_validation_cex :
    pca (.arr2 [[0]] false) (.num (3/2)) (fun _ => ([], [])) =
      .error .valueErr ∧
    pca (.arr2 [[0]] false) (.num (3/2)) (fun _ => ([], [])) ≠
      .error .typeErr ∧
    isNumericMatrix2D (.arr2 [[0]] false) = false := by
  have h : pca (.arr2 [[0]] false) (.num (3/2)) (fun _ => ([], [])) =
      .error .valueErr := by
    show (if ¬((0 : ℚ) < 3/2 ∧ (3/2 : ℚ) ≤ 1) then Except.error NpErr.valueErr
      else if false then
        if ncols [[0]] < 2 ∨ ([[0]] : List (List ℚ)).length < 2
          then Except.error NpErr.valueErr
        else Except.ok (pcaCompute [[0]] (3/2) (fun _ => ([], [])))
      else Except.error NpErr.typeErr) = Except.error NpErr.valueErr
    rw [if_pos (by norm_num)]
  refine ⟨h, ?_, rfl⟩
  rw [h]
  simp

/-! ### Complex eigensolver output (claim C6)

When `np.linalg.eig` sees complex-noise artifacts it returns a complex
array; the code applies `np.argsort` / `np.cumsum` to it unchanged.  A
complex value is modelled as a pair `(re, im) : ℚ × ℚ`; numpy orders complex
values lexicographically by real part, then imaginary part. -/

/-- numpy's comparison on complex values: lexicographic (real, imaginary). -/
def leC (a b : ℚ × ℚ) : Bool :=
  decide (a.1 < b.1 ∨ (a.1 = b.1 ∧ a.2 ≤ b.2))

/-- `np.argsort` on a complex eigenvalue array. -/
def argsortC (l : List (ℚ × ℚ)) : List ℕ :=
  (List.range l.length).mergeSort fun i j =>
    leC (l.getD i (0, 0)) (l.getD j (0, 0))

/-- `Eigs[np.argsort(Eigs)[::-1]]` on a complex eigenvalue array: exactly the
lines of the source that the claim says clamp imaginary parts first. -/
def sortedEigsC (l : List (ℚ × ℚ)) : List (ℚ × ℚ) :=
  ((argsortC l).reverse).map fun i => l.getD i (0, 0)

/-- `np.cumsum` on a complex array: componentwise prefix sums. -/
def cumsumC (l : List (ℚ × ℚ)) : List (ℚ × ℚ) :=
  (List.range l.length).map fun i => (l.take (i + 1)).sum

/-- C6 (amended): the code discards nothing: the sorted eigenvalue list is a
permutation of the eigensolver's output with imaginary parts intact, and
whenever that output has an eigenvalue with nonzero imaginary part so does
the sorted list used downstream.  The values used for sorting and cumulative
summation are real only when the eigensolver already returned real values
(which numpy's `eig` does for real symmetric covariance input, returning a
real-dtype array). -/
theorem pca_complex_passthrough (l : List (ℚ × ℚ)) :
    List.Perm (sortedEigsC l) l ∧
    ((∃ x ∈ l, x.2 ≠ 0) → ∃ y ∈ sortedEigsC l, y.2 ≠ 0) := by
  have hperm : List.Perm (sortedEigsC l) l := by
    apply map_getD_perm
    exact (List.reverse_perm _).trans (List.mergeSort_perm _ _)
  refine ⟨hperm, ?_⟩
  rintro ⟨x, hx, hx2⟩
  exact ⟨x, hperm.mem_iff.mpr hx, hx2⟩

/-- C6 counterexample: on eigensolver output `[1 + i, 2]` the values the code
sorts and cumulatively sums keep their imaginary parts: the sorted list is
`[2, 1 + i]` and the cumulative sums are `[2, 3 + i]`, which are not all
real — no imaginary part was discarded or clamped before sorting. -/
theorem pca_complex_cex :
    sortedEigsC [(1, 1), (2, 0)] = [(2, 0), (1, 1)] ∧
    cumsumC (sortedEigsC [(1, 1), (2, 0)]) = [(2, 0), (3, 1)] ∧
    ¬ (∀ y ∈ sortedEigsC [(1, 1), (2, 0)], y.2 = 0) ∧
    ¬ (∀ y ∈ cumsumC (sortedEigsC [(1, 1), (2, 0)]), y.2 = 0) := by
  have hargs : argsortC [(1, 1), (2, 0)] = [0, 1] := by
    unfold argsortC
    rw [show List.range ([(1, 1), (2, 0)] : List (ℚ × ℚ)).length = [0, 1]
      from rfl]
    apply List.mergeSort_of_sorted
    decide
  have hsorted : sortedEigsC [(1, 1), (2, 0)] = [(2, 0), (1, 1)] := by
    unfold sortedEigsC
    rw [hargs]
    rfl
  have hcum : cumsumC ([(2, 0), (1, 1)] : List (ℚ × ℚ)) = [(2, 0), (3, 1)] := by
    unfold cumsumC
    simp [List.range_succ, Prod.ext_iff]
    norm_num
  refine ⟨hsorted, by rw [hsorted, hcum], ?_, ?_⟩
  · rw [hsorted]
    intro hall
    have := hall (1, 1) (by simp)
    simp at this
  · rw [hsorted, hcum]
    intro hall
    have := hall (3, 1) (by simp)
    simp at this

end AluML
